import Mathlib

/-!
Verification development for the `trace` path-tracing renderer.

The definitions below are a shallow embedding of `src/trace.cpp`.  Machine
`double` arithmetic is modelled by exact arithmetic (`ℚ` for the tile grid
and output transform where no square roots occur, `ℝ` for the geometry),
`int` truncation of non-negative values by `Int.floor`, and the C++
`infinity` constant by `⊤ : EReal`.  Components of the repository whose
source files are not present (`sphere.h`, `hittable_list.h`, `common.h`)
are modelled from the specification and marked as such in their doc
comments.
-/

namespace Trace

/-! ## Tile grid (`renderImage`, trace.cpp lines 141-179) -/

/-- Nominal tile edge, the `TILESIZE` macro of trace.cpp. -/
def TILESIZE : ℕ := 32

/-- Number of tile columns: `tiles_x = image_width / TILESIZE` (integer division). -/
def tilesX (w : ℕ) : ℕ := w / TILESIZE

/-- Number of tile rows: `tiles_y = image_height / TILESIZE` (integer division). -/
def tilesY (h : ℕ) : ℕ := h / TILESIZE

/-- Total number of tiles: `tile_count = tiles_x * tiles_y`. -/
def tileCount (w h : ℕ) : ℕ := tilesX w * tilesY h

/-- Generic stretched tile edge: `static_cast<int>((double(size)/k) * t)`.
The truncation of the non-negative product is `Int.floor`. -/
def stretchEdge (size k t : ℕ) : ℤ := ⌊((size : ℚ) / (k : ℚ)) * (t : ℚ)⌋

/-- Column of a tile index: `tx = tile % tiles_x`. -/
def tileTx (w tile : ℕ) : ℕ := tile % tilesX w

/-- Row of a tile index: `ty = tile / tiles_x`. -/
def tileTy (w tile : ℕ) : ℕ := tile / tilesX w

/-- Left pixel bound of a tile: `start_x = static_cast<int>(tsize_x * tx)`. -/
def startX (w tile : ℕ) : ℤ := stretchEdge w (tilesX w) (tileTx w tile)

/-- Right pixel bound of a tile: `end_x = static_cast<int>(tsize_x * (tx + 1))`. -/
def endX (w tile : ℕ) : ℤ := stretchEdge w (tilesX w) (tileTx w tile + 1)

/-- Top pixel bound of a tile: `start_y = static_cast<int>(tsize_y * ty)`. -/
def startY (w h tile : ℕ) : ℤ := stretchEdge h (tilesY h) (tileTy w tile)

/-- Bottom pixel bound of a tile: `end_y = static_cast<int>(tsize_y * (ty + 1))`. -/
def endY (w h tile : ℕ) : ℤ := stretchEdge h (tilesY h) (tileTy w tile + 1)

/-- Membership of pixel `(x, y)` in the half-open rectangle
`[start_x, end_x) × [start_y, end_y)` of a tile, exactly the ranges of the
two pixel loops of `renderImage`. -/
def tileContains (w h tile : ℕ) (x y : ℤ) : Prop :=
  startX w tile ≤ x ∧ x < endX w tile ∧ startY w h tile ≤ y ∧ y < endY w h tile

instance (w h tile : ℕ) (x y : ℤ) : Decidable (tileContains w h tile x y) := by
  unfold tileContains; exact inferInstance

/-! ## Output transform (`main`, trace.cpp lines 242-246) -/

/-- Modelled from the spec: `clamp` lives in `common.h`, which is not under
`src/`; the spec describes it as clamping to a closed interval, the standard
`clamp(x, min, max)` helper. -/
noncomputable def clamp (x mn mx : ℝ) : ℝ :=
  if x < mn then mn else if x > mx then mx else x

/-- Integer channel value actually written by `main` for a channel whose
linear (averaged) value is `x`:
`static_cast<int>(256 * clamp(x, 0.0, 0.999))`.  The clamped product is
non-negative, so the C++ truncation toward zero is `Int.floor`. -/
noncomputable def writtenChannel (x : ℝ) : ℤ :=
  ⌊256 * clamp x 0 0.999⌋

/-- Channel value the specification describes: gamma-2 encoding (square
root) before scaling, clamping and truncation. -/
noncomputable def gammaChannel (x : ℝ) : ℤ :=
  ⌊256 * clamp (Real.sqrt x) 0 0.999⌋

/-! ## Command-line argument handling (`main`, trace.cpp lines 185-201) -/

/-- Default image width, the `DEFAULT_WIDTH` macro. -/
def DEFAULT_WIDTH : ℤ := 800

/-- Default samples per pixel, the `DEFAULT_SAMPLES` macro. -/
def DEFAULT_SAMPLES : ℤ := 100

/-- Default maximum bounce depth, the `DEFAULT_DEPTH` macro. -/
def DEFAULT_DEPTH : ℤ := 50

/-- Digit-run parser used by the model of `std::stoi`: reads a maximal
leading run of decimal digits, failing when there is none. -/
def parseDigits (cs : List Char) : Option ℕ :=
  let ds := cs.takeWhile Char.isDigit
  if ds.isEmpty then none
  else some (ds.foldl (fun a c => 10 * a + (c.toNat - 48)) 0)

/-- Model of `std::stoi` (standard library, not part of the repository):
skips leading spaces, accepts an optional sign followed by at least one
decimal digit, and fails — `std::stoi` throws `std::invalid_argument` —
when no digits can be read.  `none` models the thrown exception. -/
def stoiModel (s : String) : Option ℤ :=
  let cs := s.data.dropWhile (fun c => c = ' ')
  match cs with
  | [] => none
  | c :: rest =>
    if c = '-' then (parseDigits rest).map (fun n => -(n : ℤ))
    else if c = '+' then (parseDigits rest).map (fun n => (n : ℤ))
    else (parseDigits cs).map (fun n => (n : ℤ))

/-- Render parameters produced by argument handling in `main`. -/
structure Config where
  image_width : ℤ
  samples_per_pixel : ℤ
  max_depth : ℤ
deriving DecidableEq, Repr

/-- Argument handling of `main` (trace.cpp lines 185-201): a `switch` on
`argc` whose cases fall through from depth to samples to width, each
`std::stoi` result being replaced by the default when it is zero.  A thrown
`std::stoi` exception is uncaught and terminates the program, modelled by
`none`. -/
def mainArgs (argv : List String) : Option Config :=
  match argv with
  | [_, a1, a2, a3] => do
    let d ← stoiModel a3
    let s ← stoiModel a2
    let w ← stoiModel a1
    pure ⟨if w = 0 then DEFAULT_WIDTH else w,
          if s = 0 then DEFAULT_SAMPLES else s,
          if d = 0 then DEFAULT_DEPTH else d⟩
  | [_, a1, a2] => do
    let s ← stoiModel a2
    let w ← stoiModel a1
    pure ⟨if w = 0 then DEFAULT_WIDTH else w,
          if s = 0 then DEFAULT_SAMPLES else s,
          DEFAULT_DEPTH⟩
  | [_, a1] => do
    let w ← stoiModel a1
    pure ⟨if w = 0 then DEFAULT_WIDTH else w,
          DEFAULT_SAMPLES,
          DEFAULT_DEPTH⟩
  | _ => pure ⟨DEFAULT_WIDTH, DEFAULT_SAMPLES, DEFAULT_DEPTH⟩

/-! ## Tile scheduler (`atile` and the claim loop of `renderImage`) -/

/-- Shared scheduler state: the atomic counter `atile` together with the
log of fetch-and-increment events, each event recording the worker that
performed the fetch and the value it received. -/
structure SchedState where
  counter : ℕ
  log : List (ℕ × ℕ)
deriving DecidableEq, Repr

/-- Initial scheduler state: `atile` is zero-initialised and no fetch has
happened. -/
def initState : SchedState := ⟨0, []⟩

/-- A worker has stopped once some fetch returned a value `≥ tile_count`
to it (`if (tile >= tile_count) break`). -/
def workerStopped (tc : ℕ) (s : SchedState) (wk : ℕ) : Prop :=
  ∃ e ∈ s.log, e.1 = wk ∧ tc ≤ e.2

instance (tc : ℕ) (s : SchedState) (wk : ℕ) : Decidable (workerStopped tc s wk) := by
  unfold workerStopped; exact inferInstance

/-- Effect of one atomic fetch-and-increment (`int tile = atile++`) by
worker `wk`: the worker receives the current counter value and the counter
increases by one, in one indivisible step. -/
def fetchStep (s : SchedState) (wk : ℕ) : SchedState :=
  ⟨s.counter + 1, s.log ++ [(wk, s.counter)]⟩

/-- Interleaving semantics of the render pass: at any moment one
not-yet-stopped worker (of the `nw` workers) performs an atomic
fetch-and-increment.  Tile claiming is the sole shared-state transition. -/
def SchedStep (nw tc : ℕ) (s s' : SchedState) : Prop :=
  ∃ wk, wk < nw ∧ ¬ workerStopped tc s wk ∧ s' = fetchStep s wk

/-- Reachability of scheduler states along any interleaving. -/
def SchedReachable (nw tc : ℕ) : SchedState → SchedState → Prop :=
  Relation.ReflTransGen (SchedStep nw tc)

/-- A render pass is complete when every worker has stopped, which is when
`renderImage` returns in each thread. -/
def SchedTerminal (nw tc : ℕ) (s : SchedState) : Prop :=
  ∀ wk < nw, workerStopped tc s wk

instance (nw tc : ℕ) (s : SchedState) : Decidable (SchedTerminal nw tc s) := by
  unfold SchedTerminal; exact inferInstance

/-! ## Geometry and light transport (`ray_colour`, trace.cpp lines 24-44) -/

/-- Three-component vector of `vec3.h`; doubles are modelled by `ℝ`. -/
structure Vec3 where
  x : ℝ
  y : ℝ
  z : ℝ

/-- Component-wise vector addition. -/
def Vec3.add (a b : Vec3) : Vec3 := ⟨a.x + b.x, a.y + b.y, a.z + b.z⟩

/-- Component-wise vector subtraction. -/
def Vec3.sub (a b : Vec3) : Vec3 := ⟨a.x - b.x, a.y - b.y, a.z - b.z⟩

/-- Component-wise negation. -/
def Vec3.neg (a : Vec3) : Vec3 := ⟨-a.x, -a.y, -a.z⟩

/-- Component-wise (Hadamard) product, the colour-by-colour `operator*`. -/
def Vec3.hmul (a b : Vec3) : Vec3 := ⟨a.x * b.x, a.y * b.y, a.z * b.z⟩

/-- Scalar multiple `t * v`. -/
def Vec3.smul (t : ℝ) (a : Vec3) : Vec3 := ⟨t * a.x, t * a.y, t * a.z⟩

instance : Add Vec3 := ⟨Vec3.add⟩

instance : Sub Vec3 := ⟨Vec3.sub⟩

instance : Neg Vec3 := ⟨Vec3.neg⟩

instance : Mul Vec3 := ⟨Vec3.hmul⟩

instance : SMul ℝ Vec3 := ⟨Vec3.smul⟩

instance : Zero Vec3 := ⟨⟨0, 0, 0⟩⟩

/-- Dot product of two vectors. -/
def dot (a b : Vec3) : ℝ := a.x * b.x + a.y * b.y + a.z * b.z

/-- Squared Euclidean length. -/
def lengthSq (v : Vec3) : ℝ := dot v v

/-- Euclidean length. -/
noncomputable def length (v : Vec3) : ℝ := Real.sqrt (lengthSq v)

/-- Normalisation `unit_vector(v) = v / v.length()`. -/
noncomputable def unit_vector (v : Vec3) : Vec3 := (1 / length v) • v

/-- Ray with origin and direction, from `ray.h`. -/
structure Ray where
  orig : Vec3
  dir : Vec3

/-- Point reached by a ray at parameter `t`: `r.at(t) = orig + t*dir`. -/
def Ray.at (r : Ray) (t : ℝ) : Vec3 := r.orig + t • r.dir

/-- Geometric data of a `hit_record`: intersection point, normal oriented
against the incoming ray, parameter `t` and the `front_face` flag. -/
structure HitRecData where
  p : Vec3
  normal : Vec3
  t : ℝ
  front_face : Bool

/-- Material capability: `scatter(incoming, rec)` returns the attenuation
colour and scattered ray, or `none` for full absorption.  Scattering of
the concrete materials (material.h is not under `src/`) is left abstract;
the claims quantify over its outcome. -/
def Material : Type := Ray → HitRecData → Option (Vec3 × Ray)

/-- A `hit_record` together with its `mat_ptr`. -/
structure HitRec where
  data : HitRecData
  mat : Material

/-- Sphere of `sphere.h`: center, (signed) radius and material. -/
structure Sphere where
  center : Vec3
  radius : ℝ
  mat : Material

/-- Quadratic leading coefficient `a = dot(dir, dir)` of the ray-sphere
intersection equation. -/
def sphereA (_s : Sphere) (r : Ray) : ℝ := dot r.dir r.dir

/-- Half the linear coefficient, `half_b = dot(orig - center, dir)`. -/
def sphereHalfB (s : Sphere) (r : Ray) : ℝ := dot (r.orig - s.center) r.dir

/-- Constant coefficient `c = |orig - center|^2 - radius^2`. -/
def sphereCc (s : Sphere) (r : Ray) : ℝ := lengthSq (r.orig - s.center) - s.radius ^ 2

/-- Discriminant `half_b^2 - a*c` of the ray-sphere quadratic. -/
def sphereDisc (s : Sphere) (r : Ray) : ℝ := sphereHalfB s r ^ 2 - sphereA s r * sphereCc s r

/-- Near root `(-half_b - sqrt(disc)) / a` of the ray-sphere quadratic. -/
noncomputable def sphereNear (s : Sphere) (r : Ray) : ℝ :=
  (-sphereHalfB s r - Real.sqrt (sphereDisc s r)) / sphereA s r

/-- Far root `(-half_b + sqrt(disc)) / a` of the ray-sphere quadratic. -/
noncomputable def sphereFar (s : Sphere) (r : Ray) : ℝ :=
  (-sphereHalfB s r + Real.sqrt (sphereDisc s r)) / sphereA s r

/-- Root `t` lies in the open interval `(t_min, t_max)`; the bounds live in
`EReal` so that the `infinity` of `common.h` is `⊤`. -/
def inRange (tmin tmax : EReal) (t : ℝ) : Prop :=
  tmin < (t : EReal) ∧ (t : EReal) < tmax

noncomputable instance (tmin tmax : EReal) (t : ℝ) : Decidable (inRange tmin tmax t) := by
  unfold inRange; exact inferInstance

/-- Record construction at an accepted root: the outward normal is
`(p - center) / radius`, `front_face` is the sign of
`dot(dir, outward)`, and the stored normal opposes the incoming ray. -/
noncomputable def hitRecordOf (s : Sphere) (r : Ray) (root : ℝ) : HitRec :=
  if dot r.dir ((1 / s.radius) • (r.at root - s.center)) < 0
  then ⟨⟨r.at root, (1 / s.radius) • (r.at root - s.center), root, true⟩, s.mat⟩
  else ⟨⟨r.at root, -((1 / s.radius) • (r.at root - s.center)), root, false⟩, s.mat⟩

/-- Modelled from the spec: `sphere::hit` lives in `sphere.h`, which is not
under `src/`.  Following spec section 4.1: compute the discriminant of the
ray-sphere quadratic; if negative, no hit; otherwise accept the smallest
root in `(t_min, t_max)`, preferring the near root and falling back to the
far root when the near one is out of range, rejecting when neither
qualifies. -/
noncomputable def sphereHit (s : Sphere) (r : Ray) (tmin tmax : EReal) : Option HitRec :=
  if sphereDisc s r < 0 then none
  else if inRange tmin tmax (sphereNear s r) then some (hitRecordOf s r (sphereNear s r))
  else if inRange tmin tmax (sphereFar s r) then some (hitRecordOf s r (sphereFar s r))
  else none

/-- Modelled from the spec: `hittable_list::hit` lives in
`hittable_list.h`, which is not under `src/`.  Following spec section 4.1:
a linear scan over the owned objects, tracking the closest hit found so
far and shrinking `t_max` to that hit's `t` as it goes, returning the
nearest hit only. -/
noncomputable def worldHit : List Sphere → Ray → EReal → EReal → Option HitRec
  | [], _, _, _ => none
  | s :: rest, r, tmin, tmax =>
    match sphereHit s r tmin tmax with
    | none => worldHit rest r tmin tmax
    | some hrec =>
      match worldHit rest r tmin (hrec.data.t : EReal) with
      | none => some hrec
      | some hrec' => some hrec'

/-- Shadow-acne epsilon: the literal `0.001` lower bound that `ray_colour`
passes to `world.hit`. -/
def epsilon : ℝ := 0.001

/-- Background gradient of the specification: the vertical linear
interpolation between white and sky-blue, parametrized by the normalized
ray direction's vertical component mapped from `[-1, 1]` to `[0, 1]`. -/
noncomputable def skyGradient (r : Ray) : Vec3 :=
  let t := 0.5 * ((unit_vector r.dir).y + 1.0)
  (1.0 - t) • (⟨1.0, 1.0, 1.0⟩ : Vec3) + t • (⟨0.5, 0.7, 1.0⟩ : Vec3)

/-- Embedding of `ray_colour` (trace.cpp lines 24-44): black when the
bounce budget is exhausted; otherwise test the world on `(0.001, ∞)`;
on a hit, scatter and recurse with `depth - 1` or absorb to black; on a
miss, return the sky gradient. -/
noncomputable def ray_colour (r : Ray) (world : List Sphere) (depth : ℤ) : Vec3 :=
  if depth ≤ 0 then ⟨0, 0, 0⟩
  else
    match worldHit world r (epsilon : ℝ) ⊤ with
    | some hrec =>
      match hrec.mat r hrec.data with
      | some (att, scattered) => att * ray_colour scattered world (depth - 1)
      | none => ⟨0, 0, 0⟩
    | none =>
      let t := 0.5 * ((unit_vector r.dir).y + 1.0)
      (1.0 - t) • (⟨1.0, 1.0, 1.0⟩ : Vec3) + t • (⟨0.5, 0.7, 1.0⟩ : Vec3)
termination_by depth.toNat
decreasing_by simp_wf; omega

/-- Fuelled reformulation of `ray_colour` used to state termination:
`none` signals fuel exhaustion; each recursive call consumes one unit of
fuel. -/
noncomputable def ray_colourFuel : ℕ → Ray → List Sphere → ℤ → Option Vec3
  | 0, _, _, _ => none
  | fuel + 1, r, world, depth =>
    if depth ≤ 0 then some ⟨0, 0, 0⟩
    else
      match worldHit world r (epsilon : ℝ) ⊤ with
      | some hrec =>
        match hrec.mat r hrec.data with
        | some (att, scattered) =>
          (ray_colourFuel fuel scattered world (depth - 1)).map (fun c => att * c)
        | none => some ⟨0, 0, 0⟩
      | none =>
        let t := 0.5 * ((unit_vector r.dir).y + 1.0)
        some ((1.0 - t) • (⟨1.0, 1.0, 1.0⟩ : Vec3) + t • (⟨0.5, 0.7, 1.0⟩ : Vec3))

/-! ## Concrete example values used by the witness theorems -/

/-- Material that always absorbs. -/
def absorbMat : Material := fun _ _ => none

/-- Example ray: origin at the world origin, looking down `-z`. -/
def exRay : Ray := ⟨⟨0, 0, 0⟩, ⟨0, 0, -1⟩⟩

/-- Example sphere: unit sphere centred at `(0, 0, -2)`, absorbing. -/
def exSphere : Sphere := ⟨⟨0, 0, -2⟩, 1, absorbMat⟩

/-- Hit record produced by `exRay` against `exSphere`: first intersection
at `t = 1`, point `(0, 0, -1)`, outward (front-face) normal `(0, 0, 1)`. -/
def exRec : HitRec := ⟨⟨⟨0, 0, -1⟩, ⟨0, 0, 1⟩, 1, true⟩, absorbMat⟩

/-- Final scheduler state of a one-worker, one-tile render pass: the
worker fetched `0` (claiming the only tile) and then `1` (stopping). -/
def exSched : SchedState := ⟨2, [(0, 0), (0, 1)]⟩

/-! ## Component lemmas for the vector operations -/

@[simp] theorem add_mk (a b c d e f : ℝ) :
    (⟨a, b, c⟩ + ⟨d, e, f⟩ : Vec3) = ⟨a + d, b + e, c + f⟩ := rfl

@[simp] theorem sub_mk (a b c d e f : ℝ) :
    (⟨a, b, c⟩ - ⟨d, e, f⟩ : Vec3) = ⟨a - d, b - e, c - f⟩ := rfl

@[simp] theorem neg_mk (a b c : ℝ) :
    (-(⟨a, b, c⟩ : Vec3)) = (⟨-a, -b, -c⟩ : Vec3) := rfl

@[simp] theorem hmul_mk (a b c d e f : ℝ) :
    (⟨a, b, c⟩ * ⟨d, e, f⟩ : Vec3) = ⟨a * d, b * e, c * f⟩ := rfl

@[simp] theorem smul_mk (t a b c : ℝ) :
    (t • (⟨a, b, c⟩ : Vec3)) = ⟨t * a, t * b, t * c⟩ := rfl

@[simp] theorem dot_mk (a b c d e f : ℝ) :
    dot ⟨a, b, c⟩ ⟨d, e, f⟩ = a * d + b * e + c * f := rfl

@[simp] theorem lengthSq_mk (a b c : ℝ) :
    lengthSq ⟨a, b, c⟩ = a * a + b * b + c * c := rfl

/-! ## Evaluation of the example intersection -/

theorem exA_eval : sphereA exSphere exRay = 1 := by
  norm_num [sphereA, exRay]

theorem exHalfB_eval : sphereHalfB exSphere exRay = -2 := by
  norm_num [sphereHalfB, exRay, exSphere]

theorem exCc_eval : sphereCc exSphere exRay = 3 := by
  norm_num [sphereCc, exRay, exSphere]

theorem exDisc_eval : sphereDisc exSphere exRay = 1 := by
  norm_num [sphereDisc, exA_eval, exHalfB_eval, exCc_eval]

theorem exNear_eval : sphereNear exSphere exRay = 1 := by
  rw [sphereNear, exDisc_eval, exHalfB_eval, exA_eval]
  norm_num

theorem exFar_eval : sphereFar exSphere exRay = 3 := by
  rw [sphereFar, exDisc_eval, exHalfB_eval, exA_eval]
  norm_num

theorem exRecord_eval : hitRecordOf exSphere exRay 1 = exRec := by
  norm_num [hitRecordOf, Ray.at, exRay, exSphere, exRec]

theorem exSphereHit_eval : sphereHit exSphere exRay (epsilon : ℝ) ⊤ = some exRec := by
  rw [sphereHit, exDisc_eval, exNear_eval, if_neg (by norm_num)]
  rw [if_pos ⟨by rw [EReal.coe_lt_coe_iff]; norm_num [epsilon], EReal.coe_lt_top 1⟩]
  rw [exRecord_eval]

theorem exWorldHit_eval : worldHit [exSphere] exRay (epsilon : ℝ) ⊤ = some exRec := by
  rw [worldHit, exSphereHit_eval]
  rfl

/-! ## Basic lemmas about the evaluator -/

theorem ray_colour_base (r : Ray) (world : List Sphere) (depth : ℤ) (h : depth ≤ 0) :
    ray_colour r world depth = ⟨0, 0, 0⟩ := by
  rw [ray_colour, if_pos h]

theorem ray_colour_miss (r : Ray) (world : List Sphere) (depth : ℤ) (h : 1 ≤ depth)
    (hw : worldHit world r (epsilon : ℝ) ⊤ = none) :
    ray_colour r world depth = skyGradient r := by
  rw [ray_colour, if_neg (by omega), hw, skyGradient]

theorem ray_colour_scatter (r : Ray) (world : List Sphere) (depth : ℤ) (hrec : HitRec)
    (h : 1 ≤ depth) (hw : worldHit world r (epsilon : ℝ) ⊤ = some hrec)
    (att : Vec3) (scattered : Ray) (hs : hrec.mat r hrec.data = some (att, scattered)) :
    ray_colour r world depth = att * ray_colour scattered world (depth - 1) := by
  rw [ray_colour, if_neg (by omega), hw]
  dsimp only
  rw [hs]

theorem ray_colour_absorb (r : Ray) (world : List Sphere) (depth : ℤ) (hrec : HitRec)
    (h : 1 ≤ depth) (hw : worldHit world r (epsilon : ℝ) ⊤ = some hrec)
    (hs : hrec.mat r hrec.data = none) :
    ray_colour r world depth = ⟨0, 0, 0⟩ := by
  rw [ray_colour, if_neg (by omega), hw]
  dsimp only
  rw [hs]

theorem worldHit_nil (r : Ray) (tmin tmax : EReal) : worldHit [] r tmin tmax = none := rfl

theorem ray_colourFuel_sound (n : ℕ) :
    ∀ depth : ℤ, depth.toNat < n → ∀ (r : Ray) (world : List Sphere),
      ray_colourFuel n r world depth = some (ray_colour r world depth) := by
  induction n with
  | zero => intro depth h; omega
  | succ n ih =>
    intro depth _h r world
    by_cases hd : depth ≤ 0
    · rw [ray_colourFuel, if_pos hd, ray_colour_base r world depth hd]
    · rw [ray_colourFuel, if_neg hd]
      have h1 : 1 ≤ depth := by omega
      cases hw : worldHit world r (epsilon : ℝ) ⊤ with
      | none =>
        rw [ray_colour_miss r world depth h1 hw, skyGradient]
      | some hrec =>
        cases hm : hrec.mat r hrec.data with
        | none =>
          rw [ray_colour_absorb r world depth hrec h1 hw hm]
          dsimp only
          rw [hm]
        | some p =>
          obtain ⟨att, scattered⟩ := p
          rw [ray_colour_scatter r world depth hrec h1 hw att scattered hm]
          dsimp only
          rw [hm]
          dsimp only
          rw [ih (depth - 1) (by omega) scattered world]
          rfl

/-! ## Lemmas about the tile grid -/

theorem stretchEdge_zero (size k : ℕ) : stretchEdge size k 0 = 0 := by
  rw [stretchEdge]
  norm_num

theorem stretchEdge_last (size k : ℕ) (hk : 0 < k) : stretchEdge size k k = size := by
  rw [stretchEdge, div_mul_cancel₀ _ (by exact_mod_cast hk.ne' : (k : ℚ) ≠ 0)]
  exact Int.floor_natCast size

theorem stretchEdge_mono (size k : ℕ) : Monotone (stretchEdge size k) := by
  intro a b hab
  exact Int.floor_le_floor (mul_le_mul_of_nonneg_left (by exact_mod_cast hab) (by positivity))

theorem stretchEdge_nonneg (size k t : ℕ) : 0 ≤ stretchEdge size k t :=
  Int.floor_nonneg.mpr (by positivity)

theorem stretchEdge_le (size k t : ℕ) (hk : 0 < k) (ht : t ≤ k) :
    stretchEdge size k t ≤ (size : ℤ) :=
  (stretchEdge_mono size k ht).trans_eq (stretchEdge_last size k hk)

theorem exists_edge_interval (f : ℕ → ℤ) (k : ℕ) (x : ℤ) (h0 : f 0 ≤ x) (hk : x < f k) :
    ∃ t, t < k ∧ f t ≤ x ∧ x < f (t + 1) := by
  induction k with
  | zero => exact absurd (h0.trans_lt hk) (lt_irrefl (f 0))
  | succ k ih =>
    by_cases h : f k ≤ x
    · exact ⟨k, Nat.lt_succ_self k, h, hk⟩
    · obtain ⟨t, ht, h1, h2⟩ := ih (not_le.mp h)
      exact ⟨t, ht.trans (Nat.lt_succ_self k), h1, h2⟩

theorem unique_edge_interval (f : ℕ → ℤ) (hf : Monotone f) (x : ℤ) (t t' : ℕ)
    (h1 : f t ≤ x) (h2 : x < f (t + 1)) (h1' : f t' ≤ x) (h2' : x < f (t' + 1)) :
    t = t' := by
  rcases lt_trichotomy t t' with h | h | h
  · have hle : f (t + 1) ≤ f t' := hf (Nat.succ_le_of_lt h)
    linarith
  · exact h
  · have hle : f (t' + 1) ≤ f t := hf (Nat.succ_le_of_lt h)
    linarith

theorem tilesX_pos (w : ℕ) (hw : TILESIZE ≤ w) : 0 < tilesX w :=
  Nat.div_pos hw (by norm_num [TILESIZE])

theorem tilesY_pos (h : ℕ) (hh : TILESIZE ≤ h) : 0 < tilesY h :=
  Nat.div_pos hh (by norm_num [TILESIZE])

theorem tileTx_lt (w tile : ℕ) (hw : TILESIZE ≤ w) : tileTx w tile < tilesX w :=
  Nat.mod_lt tile (tilesX_pos w hw)

theorem tileTy_lt (w h tile : ℕ) (hw : TILESIZE ≤ w) (ht : tile < tileCount w h) :
    tileTy w tile < tilesY h := by
  rw [tileTy, Nat.div_lt_iff_lt_mul (tilesX_pos w hw)]
  calc tile < tilesX w * tilesY h := ht
    _ = tilesY h * tilesX w := mul_comm _ _

theorem tile_decompose (w tile : ℕ) : tileTy w tile * tilesX w + tileTx w tile = tile := by
  rw [tileTy, tileTx, mul_comm]
  exact Nat.div_add_mod tile (tilesX w)

theorem tile_recompose_tx (w tx ty : ℕ) (htx : tx < tilesX w) :
    tileTx w (ty * tilesX w + tx) = tx := by
  rw [tileTx, mul_comm ty, Nat.mul_add_mod]
  exact Nat.mod_eq_of_lt htx

theorem tile_recompose_ty (w tx ty : ℕ) (htx : tx < tilesX w) (hw : TILESIZE ≤ w) :
    tileTy w (ty * tilesX w + tx) = ty := by
  rw [tileTy, mul_comm ty, Nat.mul_add_div (tilesX_pos w hw), Nat.div_eq_of_lt htx,
    Nat.add_zero]

theorem contains_bounds (w h tile : ℕ) (hw : TILESIZE ≤ w) (hh : TILESIZE ≤ h)
    (ht : tile < tileCount w h) (x y : ℤ) (hc : tileContains w h tile x y) :
    0 ≤ x ∧ x < (w : ℤ) ∧ 0 ≤ y ∧ y < (h : ℤ) := by
  obtain ⟨h1, h2, h3, h4⟩ := hc
  have hx0 : (0 : ℤ) ≤ startX w tile := stretchEdge_nonneg w (tilesX w) _
  have hy0 : (0 : ℤ) ≤ startY w h tile := stretchEdge_nonneg h (tilesY h) _
  have hxe : endX w tile ≤ (w : ℤ) :=
    stretchEdge_le w (tilesX w) _ (tilesX_pos w hw)
      (Nat.succ_le_of_lt (tileTx_lt w tile hw))
  have hye : endY w h tile ≤ (h : ℤ) :=
    stretchEdge_le h (tilesY h) _ (tilesY_pos h hh)
      (Nat.succ_le_of_lt (tileTy_lt w h tile hw ht))
  exact ⟨hx0.trans h1, h2.trans_le hxe, hy0.trans h3, h4.trans_le hye⟩

theorem tile_exists (w h : ℕ) (hw : TILESIZE ≤ w) (hh : TILESIZE ≤ h) (x y : ℤ)
    (hx0 : 0 ≤ x) (hxw : x < (w : ℤ)) (hy0 : 0 ≤ y) (hyh : y < (h : ℤ)) :
    ∃ t, t < tileCount w h ∧ tileContains w h t x y := by
  obtain ⟨tx, htx, hx1, hx2⟩ :=
    exists_edge_interval (stretchEdge w (tilesX w)) (tilesX w) x
      (by rw [stretchEdge_zero]; exact hx0)
      (by rw [stretchEdge_last w (tilesX w) (tilesX_pos w hw)]; exact hxw)
  obtain ⟨ty, hty, hy1, hy2⟩ :=
    exists_edge_interval (stretchEdge h (tilesY h)) (tilesY h) y
      (by rw [stretchEdge_zero]; exact hy0)
      (by rw [stretchEdge_last h (tilesY h) (tilesY_pos h hh)]; exact hyh)
  refine ⟨ty * tilesX w + tx, ?_, ?_⟩
  · rw [tileCount]
    calc ty * tilesX w + tx < ty * tilesX w + tilesX w := by omega
      _ = (ty + 1) * tilesX w := by ring
      _ ≤ tilesY h * tilesX w := Nat.mul_le_mul_right _ (Nat.succ_le_of_lt hty)
      _ = tilesX w * tilesY h := mul_comm _ _
  · rw [tileContains, startX, endX, startY, endY, tile_recompose_tx w tx ty htx,
      tile_recompose_ty w tx ty htx hw]
    exact ⟨hx1, hx2, hy1, hy2⟩

theorem tile_unique (w h : ℕ) (x y : ℤ)
    (t t' : ℕ) (hc : tileContains w h t x y) (hc' : tileContains w h t' x y) :
    t = t' := by
  obtain ⟨h1, h2, h3, h4⟩ := hc
  obtain ⟨h1', h2', h3', h4'⟩ := hc'
  have etx : tileTx w t = tileTx w t' :=
    unique_edge_interval (stretchEdge w (tilesX w)) (stretchEdge_mono w (tilesX w))
      x (tileTx w t) (tileTx w t') h1 h2 h1' h2'
  have ety : tileTy w t = tileTy w t' :=
    unique_edge_interval (stretchEdge h (tilesY h)) (stretchEdge_mono h (tilesY h))
      y (tileTy w t) (tileTy w t') h3 h4 h3' h4'
  rw [← tile_decompose w t, ← tile_decompose w t', etx, ety]

theorem flat_index_inj (w : ℤ) (hw : 0 < w) (x y x' y' : ℤ)
    (hx : 0 ≤ x) (hxw : x < w) (hx' : 0 ≤ x') (hxw' : x' < w)
    (hi : w * y + x = w * y' + x') : x = x' ∧ y = y' := by
  have e1 : (w * y + x) % w = x := by
    rw [add_comm, Int.add_mul_emod_self_left]
    exact Int.emod_eq_of_lt hx hxw
  have e1' : (w * y' + x') % w = x' := by
    rw [add_comm, Int.add_mul_emod_self_left]
    exact Int.emod_eq_of_lt hx' hxw'
  have e2 : (w * y + x) / w = y := by
    rw [add_comm, Int.add_mul_ediv_left x y hw.ne', Int.ediv_eq_zero_of_lt hx hxw,
      zero_add]
  have e2' : (w * y' + x') / w = y' := by
    rw [add_comm, Int.add_mul_ediv_left x' y' hw.ne', Int.ediv_eq_zero_of_lt hx' hxw',
      zero_add]
  constructor
  · rw [← e1, ← e1', hi]
  · rw [← e2, ← e2', hi]

/-! ## Lemmas about the scheduler -/

theorem sched_log_range (nw tc : ℕ) (s : SchedState)
    (hr : SchedReachable nw tc initState s) :
    s.log.map Prod.snd = List.range s.counter := by
  induction hr with
  | refl => rfl
  | tail _h hstep ih =>
    obtain ⟨wk, _hwk, _hns, rfl⟩ := hstep
    rw [fetchStep]
    simp only [List.map_append, List.map_cons, List.map_nil, ih, List.range_succ]

theorem exSched_reachable : SchedReachable 1 1 initState exSched := by
  have s1 : SchedStep 1 1 initState ⟨1, [(0, 0)]⟩ := ⟨0, by decide, by decide, rfl⟩
  have s2 : SchedStep 1 1 ⟨1, [(0, 0)]⟩ exSched := ⟨0, by decide, by decide, rfl⟩
  exact Relation.ReflTransGen.tail (Relation.ReflTransGen.tail Relation.ReflTransGen.refl s1) s2

/-! ## Lemmas about the output transform -/

theorem clamp_eq_self (x mn mx : ℝ) (h1 : mn ≤ x) (h2 : x ≤ mx) :
    clamp x mn mx = x := by
  rw [clamp, if_neg (not_lt.mpr h1), if_neg (not_lt.mpr h2)]

theorem clamp_mem (x mn mx : ℝ) (h : mn ≤ mx) :
    mn ≤ clamp x mn mx ∧ clamp x mn mx ≤ mx := by
  rw [clamp]
  split_ifs with ha hb
  · exact ⟨le_refl mn, h⟩
  · exact ⟨h, le_refl mx⟩
  · exact ⟨not_lt.mp ha, not_lt.mp hb⟩

/-! ## Lemmas about the sphere intersection -/

theorem hitRecordOf_t (s : Sphere) (r : Ray) (root : ℝ) :
    (hitRecordOf s r root).data.t = root := by
  rw [hitRecordOf]
  split <;> rfl

theorem sphereNear_le_sphereFar (s : Sphere) (r : Ray) (ha : 0 < sphereA s r) :
    sphereNear s r ≤ sphereFar s r := by
  have h := Real.sqrt_nonneg (sphereDisc s r)
  rw [sphereNear, sphereFar, div_le_div_iff₀ ha ha]
  nlinarith

/-! ## Claim theorems -/

/-- C8: for every ray, sphere and interval `(t_min, t_max)`, `sphere::hit`
returns a hit if and only if the discriminant of the ray-sphere quadratic
is non-negative and at least one root lies in the open interval
`(t_min, t_max)`; the returned `t` is always the smaller qualifying root:
the near root when it qualifies, the far root only when the near root is
out of range.  The hypothesis `0 < a` states that the ray direction is
non-degenerate, so the intersection equation is a genuine quadratic. -/
theorem sphere_hit_iff (s : Sphere) (r : Ray) (tmin tmax : EReal)
    (ha : 0 < sphereA s r) :
    ((sphereHit s r tmin tmax).isSome ↔
      (0 ≤ sphereDisc s r ∧
        (inRange tmin tmax (sphereNear s r) ∨ inRange tmin tmax (sphereFar s r)))) ∧
    ∀ hrec, sphereHit s r tmin tmax = some hrec →
      (hrec.data.t = sphereNear s r ∨ hrec.data.t = sphereFar s r) ∧
      inRange tmin tmax hrec.data.t ∧
      ∀ u, (u = sphereNear s r ∨ u = sphereFar s r) →
        inRange tmin tmax u → hrec.data.t ≤ u := by
  have hnf : sphereNear s r ≤ sphereFar s r := sphereNear_le_sphereFar s r ha
  rw [sphereHit]
  split_ifs with h1 h2 h3
  · refine ⟨?_, ?_⟩
    · constructor
      · intro h; simp at h
      · rintro ⟨hd, -⟩; exact absurd h1 (not_lt.mpr hd)
    · intro hrec h; simp at h
  · refine ⟨?_, ?_⟩
    · simp only [Option.isSome_some, true_iff]
      exact ⟨not_lt.mp h1, Or.inl h2⟩
    · intro hrec h
      have he := Option.some.inj h
      subst he
      refine ⟨Or.inl (hitRecordOf_t s r _), ?_, ?_⟩
      · rw [hitRecordOf_t]; exact h2
      · intro u hu _hr
        rcases hu with rfl | rfl
        · rw [hitRecordOf_t]
        · rw [hitRecordOf_t]; exact hnf
  · refine ⟨?_, ?_⟩
    · simp only [Option.isSome_some, true_iff]
      exact ⟨not_lt.mp h1, Or.inr h3⟩
    · intro hrec h
      have he := Option.some.inj h
      subst he
      refine ⟨Or.inr (hitRecordOf_t s r _), ?_, ?_⟩
      · rw [hitRecordOf_t]; exact h3
      · intro u hu hr
        rcases hu with rfl | rfl
        · exact absurd hr h2
        · rw [hitRecordOf_t]
  · refine ⟨?_, ?_⟩
    · constructor
      · intro h; simp at h
      · rintro ⟨-, hor⟩
        exact hor.elim (fun hh => absurd hh h2) (fun hh => absurd hh h3)
    · intro hrec h; simp at h

/-- Witness for C8: the example ray and sphere give a genuine quadratic
(`a = 1 > 0`), and the intersection test on `(0.001, ∞)` reports a hit,
with the discriminant and roots evaluated concretely. -/
theorem sphere_hit_iff_witness :
    0 < sphereA exSphere exRay ∧
    ((sphereHit exSphere exRay (epsilon : ℝ) ⊤).isSome ↔
      (0 ≤ sphereDisc exSphere exRay ∧
        (inRange (epsilon : ℝ) ⊤ (sphereNear exSphere exRay) ∨
         inRange (epsilon : ℝ) ⊤ (sphereFar exSphere exRay)))) :=
  ⟨exA_eval ▸ one_pos,
    (sphere_hit_iff exSphere exRay (epsilon : ℝ) ⊤ (exA_eval ▸ one_pos)).1⟩

/-- C4: along every interleaving of a render pass in which each worker
obtains tile indices solely by atomic fetch-and-increment of the single
shared counter and stops on a claimed index `≥ tile_count`, once all
workers have stopped every tile index in `[0, tile_count)` has been
claimed exactly once, by exactly one worker; and distinct claimed tiles
write disjoint image-buffer index sets, so no two workers ever write the
same buffer index. -/
theorem scheduler_correct (nw tc : ℕ) (s : SchedState) (hnw : 0 < nw)
    (hr : SchedReachable nw tc initState s) (ht : SchedTerminal nw tc s) :
    (∀ i, i < tc → List.count i (s.log.map Prod.snd) = 1) ∧
    (∀ i, i < tc → ∃! wk, (wk, i) ∈ s.log) ∧
    (∀ w h : ℕ, tc = tileCount w h → TILESIZE ≤ w → TILESIZE ≤ h →
      ∀ e ∈ s.log, ∀ e' ∈ s.log, e.2 ≠ e'.2 → e.2 < tc → e'.2 < tc →
        ∀ x y x' y' : ℤ, tileContains w h e.2 x y → tileContains w h e'.2 x' y' →
          (w : ℤ) * y + x ≠ (w : ℤ) * y' + x') := by
  have hmap := sched_log_range nw tc s hr
  have hnd : (s.log.map Prod.snd).Nodup := by rw [hmap]; exact List.nodup_range _
  have hctr : tc < s.counter := by
    obtain ⟨e, hel, _hew, hte⟩ := ht 0 hnw
    have hmm : e.2 ∈ s.log.map Prod.snd := List.mem_map_of_mem Prod.snd hel
    rw [hmap] at hmm
    have := List.mem_range.mp hmm
    omega
  have hmem : ∀ i, i < tc → i ∈ s.log.map Prod.snd := by
    intro i hi
    rw [hmap]
    exact List.mem_range.mpr (by omega)
  refine ⟨?_, ?_, ?_⟩
  · intro i hi
    have h1 := List.nodup_iff_count_le_one.mp hnd i
    have h2 : 0 < List.count i (s.log.map Prod.snd) :=
      List.count_pos_iff.mpr (hmem i hi)
    omega
  · intro i hi
    obtain ⟨e, hel, hei⟩ := List.mem_map.mp (hmem i hi)
    have hpe : (e.1, i) = e := by rw [← hei]
    refine ⟨e.1, hpe ▸ hel, ?_⟩
    intro wk' hw'
    have := List.inj_on_of_nodup_map hnd hw' hel (by simpa using hei.symm)
    exact congrArg Prod.fst (this.trans hpe.symm)
  · intro w h htc hw hh e hel e' hel' hne hlt hlt' x y x' y' hc hc' heq
    apply hne
    subst htc
    have hw0 : (0 : ℤ) < (w : ℤ) := by
      have : 0 < w := lt_of_lt_of_le (by norm_num [TILESIZE]) hw
      exact_mod_cast this
    obtain ⟨hx0, hxw, hy0, _⟩ := contains_bounds w h e.2 hw hh hlt x y hc
    obtain ⟨hx0', hxw', hy0', _⟩ := contains_bounds w h e'.2 hw hh hlt' x' y' hc'
    obtain ⟨hex, hey⟩ := flat_index_inj (w : ℤ) hw0 x y x' y' hx0 hxw hx0' hxw' heq
    subst hex
    subst hey
    exact tile_unique w h x y e.2 e'.2 hc hc'

/-- Witness for C4: the one-worker, one-tile execution whose final state
is `exSched` is terminal, and tile 0 was claimed exactly once. -/
theorem scheduler_correct_witness :
    0 < 1 ∧ SchedTerminal 1 1 exSched ∧
    List.count 0 (exSched.log.map Prod.snd) = 1 :=
  ⟨Nat.one_pos, by decide,
    (scheduler_correct 1 1 exSched Nat.one_pos exSched_reachable (by decide)).1
      0 Nat.one_pos⟩

/-- C5: for every ray `r`, world `w` and depth `d ≥ 1`, if `r` has a
nearest hit in `w` within `(epsilon, +infinity)` for the small positive
epsilon `0.001` (not zero), then `ray_colour r w d` equals
`attenuation * ray_colour scattered w (d-1)` (element-wise colour
multiply) when the hit material scatters with that attenuation and
scattered ray, and equals black when the material absorbs. -/
theorem ray_colour_hit_behaviour (r : Ray) (world : List Sphere) (depth : ℤ)
    (hrec : HitRec) (h : 1 ≤ depth)
    (hw : worldHit world r (epsilon : ℝ) ⊤ = some hrec) :
    0 < epsilon ∧
    (∀ att scattered, hrec.mat r hrec.data = some (att, scattered) →
      ray_colour r world depth = att * ray_colour scattered world (depth - 1)) ∧
    (hrec.mat r hrec.data = none → ray_colour r world depth = ⟨0, 0, 0⟩) := by
  refine ⟨by norm_num [epsilon], ?_, ?_⟩
  · intro att scattered hs
    exact ray_colour_scatter r world depth hrec h hw att scattered hs
  · intro hs
    exact ray_colour_absorb r world depth hrec h hw hs

/-- Witness for C5: the example ray hits the example absorbing sphere at
`t = 1` and the evaluator returns black. -/
theorem ray_colour_hit_behaviour_witness :
    1 ≤ (1 : ℤ) ∧ worldHit [exSphere] exRay (epsilon : ℝ) ⊤ = some exRec ∧
    ray_colour exRay [exSphere] 1 = ⟨0, 0, 0⟩ :=
  ⟨le_refl 1, exWorldHit_eval,
    (ray_colour_hit_behaviour exRay [exSphere] 1 exRec (le_refl 1) exWorldHit_eval).2.2 rfl⟩

/-- C6: every ray that hits nothing in the world (in particular every ray
when the world is empty) with depth `≥ 1` gets exactly the vertical
linear-interpolation gradient between white and sky-blue,
`(1-t)*(1,1,1) + t*(0.5,0.7,1.0)` with `t = 0.5*(unit_dir.y + 1)`, with
zero tolerance. -/
theorem ray_colour_background (r : Ray) (world : List Sphere) (depth : ℤ)
    (h : 1 ≤ depth) :
    (worldHit world r (epsilon : ℝ) ⊤ = none →
      ray_colour r world depth = skyGradient r) ∧
    worldHit [] r (epsilon : ℝ) ⊤ = none ∧
    ray_colour r [] depth = skyGradient r :=
  ⟨fun hw => ray_colour_miss r world depth h hw, rfl,
    ray_colour_miss r [] depth h rfl⟩

/-- Witness for C6: in the empty world the example ray gets the sky
gradient. -/
theorem ray_colour_background_witness :
    1 ≤ (1 : ℤ) ∧ ray_colour exRay [] 1 = skyGradient exRay :=
  ⟨le_refl 1, (ray_colour_background exRay [] 1 (le_refl 1)).2.2⟩

/-- C7: `ray_colour` with depth `≤ 0` (in particular depth `0`) returns
black, regardless of the world's contents. -/
theorem ray_colour_depth_exhausted (r : Ray) (world : List Sphere) (depth : ℤ)
    (h : depth ≤ 0) : ray_colour r world depth = ⟨0, 0, 0⟩ :=
  ray_colour_base r world depth h

/-- Witness for C7: depth `0` yields black on a concrete ray and world. -/
theorem ray_colour_depth_exhausted_witness :
    (0 : ℤ) ≤ 0 ∧ ray_colour exRay [exSphere] 0 = ⟨0, 0, 0⟩ :=
  ⟨le_refl 0, ray_colour_depth_exhausted exRay [exSphere] 0 (le_refl 0)⟩

/-- C2: for image dimensions accepted by the renderer (at least one full
tile in each direction, so the tile grid exists), the tile grid computed
by `renderImage` partitions the image exactly: every pixel `(x, y)` with
`0 ≤ x < width` and `0 ≤ y < height` belongs to exactly one tile (so
tiles are contiguous and non-overlapping), and every buffer index
`width*y + x` in `[0, width*height)` receives exactly one write in a full
render pass. -/
theorem tile_grid_partitions (w h : ℕ) (hw : TILESIZE ≤ w) (hh : TILESIZE ≤ h) :
    (∀ x y : ℤ, 0 ≤ x → x < (w : ℤ) → 0 ≤ y → y < (h : ℤ) →
      ∃! t, t < tileCount w h ∧ tileContains w h t x y) ∧
    (∀ i : ℤ, 0 ≤ i → i < (w : ℤ) * (h : ℤ) →
      ∃! p : ℕ × ℤ × ℤ, p.1 < tileCount w h ∧ tileContains w h p.1 p.2.1 p.2.2 ∧
        (w : ℤ) * p.2.2 + p.2.1 = i) := by
  have hpart : ∀ x y : ℤ, 0 ≤ x → x < (w : ℤ) → 0 ≤ y → y < (h : ℤ) →
      ∃! t, t < tileCount w h ∧ tileContains w h t x y := by
    intro x y hx0 hxw hy0 hyh
    obtain ⟨t, ht, hc⟩ := tile_exists w h hw hh x y hx0 hxw hy0 hyh
    refine ⟨t, ⟨ht, hc⟩, ?_⟩
    rintro t' ⟨_ht', hc'⟩
    exact tile_unique w h x y t' t hc' hc
  refine ⟨hpart, ?_⟩
  intro i hi0 hiwh
  have hw0 : (0 : ℤ) < (w : ℤ) := by
    have : 0 < w := lt_of_lt_of_le (by norm_num [TILESIZE]) hw
    exact_mod_cast this
  have hx0 : 0 ≤ i % (w : ℤ) := Int.emod_nonneg i hw0.ne'
  have hxw : i % (w : ℤ) < (w : ℤ) := Int.emod_lt_of_pos i hw0
  have hy0 : 0 ≤ i / (w : ℤ) := Int.ediv_nonneg hi0 hw0.le
  have hyh : i / (w : ℤ) < (h : ℤ) := by
    rw [Int.ediv_lt_iff_lt_mul hw0]
    calc i < (w : ℤ) * (h : ℤ) := hiwh
      _ = (h : ℤ) * (w : ℤ) := mul_comm _ _
  obtain ⟨t, ⟨ht, hc⟩, huniq⟩ := hpart (i % (w : ℤ)) (i / (w : ℤ)) hx0 hxw hy0 hyh
  refine ⟨⟨t, i % (w : ℤ), i / (w : ℤ)⟩, ⟨ht, hc, Int.ediv_add_emod i (w : ℤ)⟩, ?_⟩
  rintro ⟨t', x', y'⟩ ⟨ht', hc', hi'⟩
  obtain ⟨hx0', hxw', hy0', hyh'⟩ := contains_bounds w h t' hw hh ht' x' y' hc'
  have hxy : x' = i % (w : ℤ) ∧ y' = i / (w : ℤ) :=
    flat_index_inj (w : ℤ) hw0 x' y' (i % (w : ℤ)) (i / (w : ℤ)) hx0' hxw' hx0 hxw
      (by rw [hi', Int.ediv_add_emod i (w : ℤ)])
  obtain ⟨hex, hey⟩ := hxy
  subst hex
  subst hey
  have het : t' = t := huniq t' ⟨ht', hc'⟩
  rw [het]

/-- Witness for C2: concrete 100-by-96 image — width 100 is not an exact
multiple of the tile edge 32, height 96 is — whose corner pixel `(99, 95)`
lies in exactly one of the nine tiles. -/
theorem tile_grid_partitions_witness :
    TILESIZE ≤ 100 ∧ TILESIZE ≤ 96 ∧
    (∃! t, t < tileCount 100 96 ∧ tileContains 100 96 t 99 95) :=
  ⟨by decide, by decide,
    (tile_grid_partitions 100 96 (by decide) (by decide)).1 99 95
      (by decide) (by decide) (by decide) (by decide)⟩

/-- C10: every tile index below the tile count yields bounds satisfying
`0 ≤ start_x ≤ end_x ≤ image_width` and
`0 ≤ start_y ≤ end_y ≤ image_height`, so every buffer write
`image[image_width*y + x]` while rendering the tile stays inside the
buffer's `image_width*image_height` elements. -/
theorem tile_in_bounds (w h tile : ℕ) (hw : TILESIZE ≤ w) (hh : TILESIZE ≤ h)
    (ht : tile < tileCount w h) :
    0 ≤ startX w tile ∧ startX w tile ≤ endX w tile ∧ endX w tile ≤ (w : ℤ) ∧
    0 ≤ startY w h tile ∧ startY w h tile ≤ endY w h tile ∧ endY w h tile ≤ (h : ℤ) ∧
    ∀ x y : ℤ, tileContains w h tile x y →
      0 ≤ (w : ℤ) * y + x ∧ (w : ℤ) * y + x < (w : ℤ) * (h : ℤ) := by
  refine ⟨stretchEdge_nonneg w (tilesX w) _,
    stretchEdge_mono w (tilesX w) (Nat.le_succ _),
    stretchEdge_le w (tilesX w) _ (tilesX_pos w hw)
      (Nat.succ_le_of_lt (tileTx_lt w tile hw)),
    stretchEdge_nonneg h (tilesY h) _,
    stretchEdge_mono h (tilesY h) (Nat.le_succ _),
    stretchEdge_le h (tilesY h) _ (tilesY_pos h hh)
      (Nat.succ_le_of_lt (tileTy_lt w h tile hw ht)), ?_⟩
  intro x y hc
  obtain ⟨hx0, hxw, hy0, hyh⟩ := contains_bounds w h tile hw hh ht x y hc
  constructor
  · have : 0 ≤ (w : ℤ) * y := mul_nonneg (by positivity) hy0
    linarith
  · have h1 : y + 1 ≤ (h : ℤ) := hyh
    have h2 : (w : ℤ) * (y + 1) ≤ (w : ℤ) * (h : ℤ) :=
      mul_le_mul_of_nonneg_left h1 (by positivity)
    have h3 : (w : ℤ) * (y + 1) = (w : ℤ) * y + (w : ℤ) := by ring
    linarith

/-- Witness for C10: tile 5 of the 100-by-96 grid has its right edge
within the image width. -/
theorem tile_in_bounds_witness :
    TILESIZE ≤ 100 ∧ TILESIZE ≤ 96 ∧ 5 < tileCount 100 96 ∧
    endX 100 5 ≤ (100 : ℤ) :=
  ⟨by decide, by decide, by decide,
    (tile_in_bounds 100 96 5 (by decide) (by decide) (by decide)).2.2.1⟩

/-- C1 counterexample: the claim that the written channel value is
`trunc(256 * clamp(sqrt(x), 0, 0.999))` fails at the linear value
`x = 1/4`, where the output loop of `main` writes
`trunc(256 * clamp(1/4, 0, 0.999)) = 64` while the gamma-encoded formula
gives `trunc(256 * clamp(1/2, 0, 0.999)) = 128`: no square root appears
in trace.cpp lines 242-246. -/
theorem written_channel_no_gamma : writtenChannel (1 / 4) ≠ gammaChannel (1 / 4) := by
  have hs : Real.sqrt (1 / 4) = 1 / 2 := by
    rw [show (1 / 4 : ℝ) = (1 / 2) ^ 2 by norm_num, Real.sqrt_sq (by norm_num)]
  rw [writtenChannel, gammaChannel, hs,
    clamp_eq_self (1 / 4) 0 0.999 (by norm_num) (by norm_num),
    clamp_eq_self (1 / 2) 0 0.999 (by norm_num) (by norm_num),
    show (256 : ℝ) * (1 / 4) = ((64 : ℤ) : ℝ) by norm_num,
    show (256 : ℝ) * (1 / 2) = ((128 : ℤ) : ℝ) by norm_num,
    Int.floor_intCast, Int.floor_intCast]
  decide

/-- C1 amended: the written value of a channel with linear value `x` is
`trunc(256 * clamp(x, 0, 0.999))` — scaling, clamping to `[0, 0.999]` and
integer truncation into `[0, 255]`, with no gamma encoding applied. -/
theorem written_channel_amended (x : ℝ) :
    writtenChannel x = ⌊256 * clamp x 0 0.999⌋ ∧
    0 ≤ writtenChannel x ∧ writtenChannel x ≤ 255 := by
  have h := clamp_mem x 0 0.999 (by norm_num)
  refine ⟨rfl, ?_, ?_⟩
  · rw [writtenChannel]
    exact Int.floor_nonneg.mpr (mul_nonneg (by norm_num) h.1)
  · rw [writtenChannel]
    have hlt : ⌊(256 : ℝ) * clamp x 0 0.999⌋ < 256 :=
      Int.floor_lt.mpr (by push_cast; nlinarith [h.2])
    omega

/-- C3 counterexample: with the non-numeric width argument `"abc"`, the
uncaught `std::invalid_argument` from `std::stoi` terminates the program
(`none`); the claimed fallback to the default width does not happen. -/
theorem main_args_invalid_fails : mainArgs ["trace", "abc"] = none := by decide

/-- C3 amended: for command-line arguments on which `std::stoi` succeeds,
a value of zero for width, samples-per-pixel or max depth falls back to
the documented default (width 800, samples 100, depth 50); a non-numeric
argument instead makes `std::stoi` throw and the program fail. -/
theorem main_args_zero_defaults (p a1 a2 a3 : String) (w sp d : ℤ)
    (hw : stoiModel a1 = some w) (hs : stoiModel a2 = some sp)
    (hd : stoiModel a3 = some d) :
    mainArgs [p, a1, a2, a3] =
      some ⟨if w = 0 then 800 else w, if sp = 0 then 100 else sp,
            if d = 0 then 50 else d⟩ ∧
    mainArgs [p, a1, a2] =
      some ⟨if w = 0 then 800 else w, if sp = 0 then 100 else sp, 50⟩ ∧
    mainArgs [p, a1] = some ⟨if w = 0 then 800 else w, 100, 50⟩ := by
  refine ⟨?_, ?_, ?_⟩ <;>
    simp [mainArgs, hw, hs, hd, DEFAULT_WIDTH, DEFAULT_SAMPLES, DEFAULT_DEPTH]

/-- Witness for the amended C3: all three arguments parse to zero and all
three parameters fall back to their defaults. -/
theorem main_args_zero_defaults_witness :
    stoiModel "0" = some 0 ∧ mainArgs ["trace", "0", "0", "0"] = some ⟨800, 100, 50⟩ := by
  have h0 : stoiModel "0" = some 0 := by decide
  refine ⟨h0, ?_⟩
  have h := (main_args_zero_defaults "trace" "0" "0" "0" 0 0 0 h0 h0 h0).1
  simpa using h

/-- C9: `ray_colour` terminates for every ray, world and integer depth:
the fuelled reformulation, given fuel `max(depth, 0) + 1`, never exhausts
its fuel and computes `ray_colour`, so the recursion depth is bounded by
`max(depth, 0)` and the function is total. -/
theorem ray_colour_terminates (r : Ray) (world : List Sphere) (depth : ℤ) :
    ray_colourFuel (depth.toNat + 1) r world depth = some (ray_colour r world depth) :=
  ray_colourFuel_sound (depth.toNat + 1) depth (by omega) r world

end Trace
